import Mathlib

/-
Verification of the month-end swing screening pipeline.

The pipeline loads per-symbol daily bars, derives the month-end trading
calendar from the union of all symbols' trading dates, and narrows the
symbol universe through cascading stages:
  generate_volume_cut.py : 20-day average volume > threshold (liquidity),
  sma_cut.py             : close > 200-day SMA (trend level),
  sma_angle_cut.py       : SMA-slope angle and close above 50/200 SMA,
  relative_rank.py       : relative-strength ratio vs the benchmark index.
Each script is embedded below as a pure function over an explicit
in-memory store of bar lists; CSV I/O is the boundary and is modelled as
structured rows.
-/

namespace NSE

/-- A ticker symbol; compared lexicographically, as Python compares strings. -/
abbrev Symbol := String

/-- A calendar date as a serial day number (days since 1970-01-01).
Pandas timestamps in the scripts carry day precision only. -/
abbrev Date := ℤ

/-- Civil (year, month, day) of a serial day number, Gregorian calendar.
Lean integer division on ℤ is floor division, so no sign adjustment is
needed.  Models the calendar arithmetic behind pandas period grouping. -/
def civilFromDays (z0 : Date) : ℤ × ℤ × ℤ :=
  let z : ℤ := z0 + 719468
  let era : ℤ := z / 146097
  let doe : ℤ := z - era * 146097
  let yoe : ℤ := (doe - doe / 1460 + doe / 36524 - doe / 146096) / 365
  let y : ℤ := yoe + era * 400
  let doy : ℤ := doe - (365 * yoe + yoe / 4 - yoe / 100)
  let mp : ℤ := (5 * doy + 2) / 153
  let d : ℤ := doy - (153 * mp + 2) / 5 + 1
  let m : ℤ := mp + (if mp < 10 then 3 else -9)
  (if m ≤ 2 then y + 1 else y, m, d)

/-- Serial day number of a civil (year, month, day), inverse of
`civilFromDays` on valid civil dates. -/
def daysFromCivil (y0 m d : ℤ) : Date :=
  let y : ℤ := if m ≤ 2 then y0 - 1 else y0
  let era : ℤ := y / 400
  let yoe : ℤ := y - era * 400
  let doy : ℤ := (153 * (m + (if 2 < m then -3 else 9)) + 2) / 5 + d - 1
  let doe : ℤ := yoe * 365 + yoe / 4 - yoe / 100 + doy
  era * 146097 + doe - 719468

/-- Gregorian leap-year test. -/
def isLeap (y : ℤ) : Bool :=
  (y % 4 == 0 && y % 100 != 0) || y % 400 == 0

/-- Number of days in a civil month. -/
def daysInMonth (y m : ℤ) : ℤ :=
  if m = 2 then (if isLeap y then 29 else 28)
  else if m = 4 ∨ m = 6 ∨ m = 9 ∨ m = 11 then 30
  else 31

/-- The (year, month) period of a date: pandas `index.to_period('M')`. -/
def ym (d : Date) : ℤ × ℤ :=
  ((civilFromDays d).1, (civilFromDays d).2.1)

/-- Calendar-month subtraction with day-of-month clamping:
`dateutil.relativedelta(months=k)` subtracted from a date, as used for the
relative-strength lookback date. -/
def subMonths (d : Date) (k : ℤ) : Date :=
  let c := civilFromDays d
  let t : ℤ := c.1 * 12 + (c.2.1 - 1) - k
  let y2 : ℤ := t / 12
  let m2 : ℤ := t % 12 + 1
  daysFromCivil y2 m2 (min c.2.2 (daysInMonth y2 m2))

/-- One daily bar of a symbol's time series.  The scripts only consume the
`close` and `volume` columns; prices are modelled as exact rationals. -/
structure Bar where
  date : Date
  close : ℚ
  volume : ℚ
deriving Repr, DecidableEq

/-- The in-memory store built in each script's loading step: the
`stock_data` dict as an association list from symbol to its bar list.
Empty or column-missing files are skipped by the loader, so entries here
are the successfully loaded series. -/
abbrev Store := List (Symbol × List Bar)

/-- Simple trailing moving average with pandas semantics:
`series.rolling(window=w).mean()` yields a missing value (`NaN`, here
`none`) at every position with fewer than `w` prior observations, and the
arithmetic mean of the trailing `w` observations afterwards. -/
def rollingMean (xs : List ℚ) (w : ℕ) : List (Option ℚ) :=
  (List.range xs.length).map fun i =>
    if i + 1 < w then none
    else some (((xs.take (i + 1)).drop (i + 1 - w)).sum / (w : ℚ))

/-- The union of all loaded symbols' trading dates (STEP 3 of
generate_volume_cut.py: `all_dates.update(df.index)` over the store builds
a set; here the distinct dates as a list). -/
def allDatesList (store : Store) : List Date :=
  (store.flatMap fun p => p.2.map (·.date)).dedup

/-- Whether `d` is the latest trading date of its own (year, month) group
within the union of dates. -/
def isMonthEnd (store : Store) (d : Date) : Bool :=
  decide (∀ e ∈ allDatesList store, ym e = ym d → e ≤ d)

/-- The MonthEndIndex: grouping the union of dates by (year, month) and
keeping each group's maximum
(`groupby(index.to_period('M')).apply(lambda x: x.index.max())`), sorted
ascending.  A date survives exactly when it is the largest date of its own
period. -/
def monthEnds (store : Store) : List Date :=
  ((allDatesList store).filter (isMonthEnd store)).insertionSort (· ≤ ·)

/-- A symbol's series paired with its rolling average volume column
(`df['avg_volume_20d'] = df['volume'].rolling(window=w).mean()`). -/
def seriesAvgVol (s : List Bar) (w : ℕ) : List (Bar × Option ℚ) :=
  s.zip (rollingMean (s.map (·.volume)) w)

/-- Exact-date row lookup in a metric-annotated series: the first row whose
calendar date equals `d` (`month_end_date in df.index` + `df.loc[...]`),
`none` when the symbol has no record on that exact date. -/
def metricAt (rows : List (Bar × Option ℚ)) (d : Date) : Option (Bar × Option ℚ) :=
  rows.find? fun r => decide (r.1.date = d)

/-- The liquidity filter body for one month-end date (STEP 4 of
generate_volume_cut.py): every stored symbol with a record at the exact
date whose rolling average volume is defined and above the threshold. -/
def volumePassers (store : Store) (w : ℕ) (thr : ℚ) (d : Date) : List Symbol :=
  (store.filter fun p =>
    match metricAt (seriesAvgVol p.2 w) d with
    | some (_, some v) => decide (thr < v)
    | _ => false).map Prod.fst

/-- Ascending lexicographic sort of a symbol list, Python's `sorted`
(stable, though stability is invisible on string keys). -/
def sortSyms (l : List Symbol) : List Symbol :=
  l.insertionSort (· ≤ ·)

/-- One persisted row of a filter stage: the month-end date, the
ascending-sorted surviving symbols, and their count. -/
structure OutRow where
  date : Date
  stocks : List Symbol
  count : ℕ
deriving Repr, DecidableEq

/-- The liquidity stage (generate_volume_cut.py): one output row per
month-end date of the store's own calendar. -/
def volumeCut (store : Store) (w : ℕ) (thr : ℚ) : List OutRow :=
  (monthEnds store).map fun d =>
    let ps := volumePassers store w thr d
    ⟨d, sortSyms ps, ps.length⟩

/-- A symbol's series paired with its 200-day SMA column
(`df['sma_200'] = df['close'].rolling(window=w).mean()`, sma_cut.py). -/
def seriesSma (s : List Bar) (w : ℕ) : List (Bar × Option ℚ) :=
  s.zip (rollingMean (s.map (·.close)) w)

/-- The trend-level filter body for one month-end date (STEP 4 of
sma_cut.py): candidates from the prior stage's row that are present in the
store, have a record on the exact date, and close strictly above a defined
200-day SMA.  Anything else fails silently. -/
def smaPassers (store : Store) (w : ℕ) (d : Date) (cands : List Symbol) : List Symbol :=
  cands.filter fun name =>
    match store.find? (fun p => p.1 == name) with
    | none => false
    | some p =>
      match metricAt (seriesSma p.2 w) d with
      | some (b, some m) => decide (m < b.close)
      | _ => false

/-- The earliest trading date across all loaded series
(`min(df.index.min() for df in stock_data.values())`); `none` on an empty
store, where the script itself would abort. -/
def minDate? (store : Store) : Option Date :=
  (store.flatMap fun p => p.2.map (·.date)).min?

/-- The warm-up cutoff of sma_cut.py / sma_angle_cut.py STEP 3:
`min_date + Timedelta(days=window * 1.5)`, a loose calendar-day
approximation of the trading history the window needs.  Both scripts use
the even window 200, for which `3·w/2` is the exact 300-day offset. -/
def firstValidDate (store : Store) (w : ℕ) : Date :=
  (minDate? store).getD 0 + (3 * (w : ℤ)) / 2

/-- The row loop shared verbatim by sma_cut.py and sma_angle_cut.py STEP 4:
keep the input rows on or after the warm-up cutoff; an empty inherited
candidate set is emitted as an empty row without evaluating the predicate;
otherwise the stage's per-date passers are sorted and counted. -/
def cutStage (fvd : Date) (g : Date → List Symbol → List Symbol)
    (rows : List (Date × List Symbol)) : List OutRow :=
  (rows.filter fun r => decide (fvd ≤ r.1)).map fun r =>
    if r.2.isEmpty then ⟨r.1, [], 0⟩
    else ⟨r.1, sortSyms (g r.1 r.2), (g r.1 r.2).length⟩

/-- The trend-level stage (sma_cut.py). -/
def smaCut (store : Store) (w : ℕ) (rows : List (Date × List Symbol)) : List OutRow :=
  cutStage (firstValidDate store w) (smaPassers store w) rows

/-- Pandas `shift(1)` on an already-optional column: each position takes
the previous position's value, the first becomes missing. -/
def shift1 {α : Type} (xs : List (Option α)) : List (Option α) :=
  (none :: xs).take xs.length

/-- The SMA slope-angle column of sma_angle_cut.py:
`angle = arctan((ma - ma.shift(1)) / (close * 0.01)) * 180 / pi`,
missing wherever the SMA or its previous value is missing (NaN
propagation through the arithmetic and `arctan`). -/
noncomputable def angleSeries (closes : List ℚ) (w : ℕ) : List (Option ℝ) :=
  let ma := rollingMean closes w
  (ma.zip ((shift1 ma).zip closes)).map fun t =>
    match t.1, t.2.1 with
    | some cur, some prev =>
        some (Real.arctan (((cur : ℝ) - (prev : ℝ)) / ((t.2.2 : ℝ) * 0.01)) * 180 / Real.pi)
    | _, _ => none

/-- A symbol's series annotated with the columns sma_angle_cut.py stores:
close, 200-day SMA, 50-day SMA and the slope angle of the 200-day SMA. -/
noncomputable def seriesBuy (s : List Bar) (w200 w50 : ℕ) :
    List (Bar × Option ℚ × Option ℚ × Option ℝ) :=
  s.zip ((rollingMean (s.map (·.close)) w200).zip
    ((rollingMean (s.map (·.close)) w50).zip (angleSeries (s.map (·.close)) w200)))

/-- Exact-date lookup in a buy-zone-annotated series. -/
noncomputable def buyAt (rows : List (Bar × Option ℚ × Option ℚ × Option ℝ)) (d : Date) :
    Option (Bar × Option ℚ × Option ℚ × Option ℝ) :=
  rows.find? fun r => decide (r.1.date = d)

open Classical in
/-- The buy-zone condition of sma_angle_cut.py STEP 4: angle, 200-SMA and
50-SMA all defined, angle above the threshold, close above both SMAs. -/
noncomputable def buyZone (r : Bar × Option ℚ × Option ℚ × Option ℝ) (θ : ℝ) : Bool :=
  match r with
  | (b, some m200, some m50, some ang) =>
      decide (θ < ang) && decide (m50 < b.close) && decide (m200 < b.close)
  | _ => false

/-- The trend-slope filter body for one month-end date (STEP 4 of
sma_angle_cut.py). -/
noncomputable def anglePassers (store : Store) (w200 w50 : ℕ) (θ : ℝ) (d : Date)
    (cands : List Symbol) : List Symbol :=
  cands.filter fun name =>
    match store.find? (fun p => p.1 == name) with
    | none => false
    | some p =>
      match buyAt (seriesBuy p.2 w200 w50) d with
      | some r => buyZone r θ
      | none => false

/-- The trend-slope stage (sma_angle_cut.py): warm-up cutoff on the
200-day window, then the buy-zone filter per row. -/
noncomputable def angleCut (store : Store) (w200 w50 : ℕ) (θ : ℝ)
    (rows : List (Date × List Symbol)) : List OutRow :=
  cutStage (firstValidDate store w200) (anglePassers store w200 w50 θ) rows

/-- Exact-date close-price lookup in a raw series (relative_rank.py
resolves both the benchmark and each stock by exact calendar-date
equality, taking the first matching row's close). -/
def priceAt (s : List Bar) (d : Date) : Option ℚ :=
  (s.find? fun b => decide (b.date = d)).map (·.close)

/-- One scored candidate of the relative-strength stage. -/
structure RankEntry where
  stock : Symbol
  ratio : ℚ
deriving Repr, DecidableEq

/-- The per-date scored list of relative_rank.py STEP 4: for each
candidate present in the store with records at both the month-end date and
the lookback date, `ratio = stock_return / benchmark_return`, kept only
when `ratio ≥ 1`. -/
def rsEntries (store : Store) (nret : ℚ) (d lb : Date) (cands : List Symbol) :
    List RankEntry :=
  cands.filterMap fun name =>
    match store.find? (fun p => p.1 == name) with
    | none => none
    | some p =>
      match priceAt p.2 d, priceAt p.2 lb with
      | some cur, some past =>
          let ratio := ((cur - past) / past) / nret
          if 1 ≤ ratio then some ⟨name, ratio⟩ else none
      | _, _ => none

/-- Stable descending sort by ratio and truncation to the top `n`
(`stock_rs_data.sort(key=..., reverse=True)` then `[:TOP_N]`; Python's
sort is stable, so ties keep their candidate-list order, as does a stable
insertion sort on the reversed comparison). -/
def topStocks (store : Store) (nret : ℚ) (d lb : Date) (cands : List Symbol)
    (n : ℕ) : List RankEntry :=
  ((rsEntries store nret d lb cands).insertionSort fun a b => b.ratio ≤ a.ratio).take n

/-- Two decimal digits, zero-padded: the fractional part of `%.2f`. -/
def pad2 (k : ℕ) : String :=
  ⟨[Char.ofNat (48 + k / 10 % 10), Char.ofNat (48 + k % 10)]⟩

/-- Python's `f-string` `:.2f` rendering of the ratio, modelled over ℚ:
round to the nearest hundredth and print with exactly two decimals. -/
def fmt2 (q : ℚ) : String :=
  let n : ℤ := round (q * 100)
  (if n < 0 then "-" else "") ++ toString (n.natAbs / 100) ++ "." ++ pad2 (n.natAbs % 100)

/-- The `stocks` field of a relative-strength row:
`"SYM1 (r1), SYM2 (r2), ..."`, empty when no stock qualified. -/
def renderEntries (l : List RankEntry) : String :=
  String.intercalate ", " (l.map fun e => e.stock ++ " (" ++ fmt2 e.ratio ++ ")")

/-- One persisted row of the relative-strength stage. -/
structure RankRow where
  date : Date
  stocks : String
deriving Repr, DecidableEq

/-- The relative-strength computation for one month-end row of
relative_rank.py STEP 4.  Empty candidates, a benchmark record missing at
the exact date or exact lookback date, or a benchmark return of exactly
zero all produce an empty row; otherwise the top `n` entries are rendered. -/
def relRankRow (store : Store) (bench : List Bar) (months : ℤ) (n : ℕ)
    (d : Date) (cands : List Symbol) : RankRow :=
  if cands.isEmpty then ⟨d, ""⟩
  else
    let lb := subMonths d months
    match priceAt bench d, priceAt bench lb with
    | some cur, some past =>
        let nret := (cur - past) / past
        if nret = 0 then ⟨d, ""⟩
        else ⟨d, renderEntries (topStocks store nret d lb cands n)⟩
    | _, _ => ⟨d, ""⟩

/-- The relative-strength stage over all rows of the prior stage's file. -/
def relativeRank (store : Store) (bench : List Bar) (months : ℤ) (n : ℕ)
    (rows : List (Date × List Symbol)) : List RankRow :=
  rows.map fun r => relRankRow store bench months n r.1 r.2

/-! ### Helper lemmas -/

theorem mem_allDatesList {store : Store} {d : Date} :
    d ∈ allDatesList store ↔ ∃ p ∈ store, ∃ b ∈ p.2, b.date = d := by
  simp only [allDatesList, List.mem_dedup, List.mem_flatMap, List.mem_map]

theorem nodup_allDatesList (store : Store) : (allDatesList store).Nodup :=
  List.nodup_dedup _

theorem mem_monthEnds {store : Store} {d : Date} :
    d ∈ monthEnds store ↔
      d ∈ allDatesList store ∧ ∀ e ∈ allDatesList store, ym e = ym d → e ≤ d := by
  rw [monthEnds, (List.perm_insertionSort _ _).mem_iff, List.mem_filter]
  simp [isMonthEnd]

theorem monthEnds_sorted_le (store : Store) :
    List.Sorted (· ≤ ·) (monthEnds store) :=
  List.sorted_insertionSort _ _

theorem monthEnds_nodup (store : Store) : (monthEnds store).Nodup :=
  ((List.perm_insertionSort (· ≤ ·) _).nodup_iff).mpr
    ((nodup_allDatesList store).filter _)

theorem exists_greatest_of_mem {l : List Date} {a : Date} (ha : a ∈ l) :
    ∃ m ∈ l, ∀ x ∈ l, x ≤ m := by
  have hne : l.toFinset.Nonempty := ⟨a, List.mem_toFinset.mpr ha⟩
  exact ⟨l.toFinset.max' hne, List.mem_toFinset.mp (Finset.max'_mem _ hne),
    fun x hx => Finset.le_max' _ x (List.mem_toFinset.mpr hx)⟩

theorem sortSyms_perm (l : List Symbol) : (sortSyms l).Perm l :=
  List.perm_insertionSort _ l

theorem mem_sortSyms {l : List Symbol} {s : Symbol} : s ∈ sortSyms l ↔ s ∈ l :=
  (sortSyms_perm l).mem_iff

theorem sortSyms_sorted (l : List Symbol) : List.Sorted (· ≤ ·) (sortSyms l) :=
  List.sorted_insertionSort _ l

theorem sortSyms_eq_of_perm {l l' : List Symbol} (h : l.Perm l') :
    sortSyms l = sortSyms l' := by
  refine List.eq_of_perm_of_sorted ?_ (sortSyms_sorted l) (sortSyms_sorted l')
  exact ((sortSyms_perm l).trans h).trans (sortSyms_perm l').symm

theorem metricAt_date {rows : List (Bar × Option ℚ)} {d : Date}
    {r : Bar × Option ℚ} (h : metricAt rows d = some r) : r.1.date = d := by
  have := List.find?_some h
  simpa using this

theorem buyAt_date {rows : List (Bar × Option ℚ × Option ℚ × Option ℝ)} {d : Date}
    {r : Bar × Option ℚ × Option ℚ × Option ℝ} (h : buyAt rows d = some r) :
    r.1.date = d := by
  have := List.find?_some h
  simpa using this

theorem monthEnds_eq_of_memEq {s s' : Store}
    (h : ∀ x, x ∈ allDatesList s ↔ x ∈ allDatesList s') :
    monthEnds s = monthEnds s' := by
  have hmem : ∀ x, x ∈ monthEnds s ↔ x ∈ monthEnds s' := by
    intro x
    rw [mem_monthEnds, mem_monthEnds]
    constructor
    · rintro ⟨hx, hmax⟩
      exact ⟨(h x).mp hx, fun e he hy => hmax e ((h e).mpr he) hy⟩
    · rintro ⟨hx, hmax⟩
      exact ⟨(h x).mpr hx, fun e he hy => hmax e ((h e).mp he) hy⟩
  have hperm : (monthEnds s).Perm (monthEnds s') :=
    (List.perm_ext_iff_of_nodup (monthEnds_nodup s) (monthEnds_nodup s')).mpr hmem
  exact List.eq_of_perm_of_sorted hperm (monthEnds_sorted_le s) (monthEnds_sorted_le s')

theorem allDatesList_memEq_of_perm {s s' : Store} (hperm : s.Perm s') :
    ∀ x, x ∈ allDatesList s ↔ x ∈ allDatesList s' := by
  intro x
  rw [mem_allDatesList, mem_allDatesList]
  constructor
  · rintro ⟨p, hp, hb⟩; exact ⟨p, hperm.mem_iff.mp hp, hb⟩
  · rintro ⟨p, hp, hb⟩; exact ⟨p, hperm.mem_iff.mpr hp, hb⟩

/-! ### C6: the MonthEndIndex -/

/-- C6: the MonthEndIndex is obtained from the union of all loaded
symbols' trading dates by grouping on (year, month) and keeping each
group's maximum, sorted ascending; it is strictly increasing, has an entry
for exactly the months in which some symbol traded, and depends only on
the set of dates, not on the symbol iteration order. -/
theorem monthEndIndex_spec (store : Store) :
    List.Sorted (· < ·) (monthEnds store) ∧
    (∀ d, d ∈ monthEnds store ↔
      (∃ p ∈ store, ∃ b ∈ p.2, b.date = d) ∧
        ∀ e, (∃ p ∈ store, ∃ b ∈ p.2, b.date = e) → ym e = ym d → e ≤ d) ∧
    (∀ pr : ℤ × ℤ, (∃ e ∈ allDatesList store, ym e = pr) ↔
      ∃ d ∈ monthEnds store, ym d = pr) ∧
    (∀ store' : Store, (∀ d, d ∈ allDatesList store ↔ d ∈ allDatesList store') →
      monthEnds store = monthEnds store') ∧
    (∀ store' : Store, store.Perm store' → monthEnds store = monthEnds store') := by
  refine ⟨?_, ?_, ?_, fun store' h => monthEnds_eq_of_memEq h, ?_⟩
  · exact (monthEnds_sorted_le store).lt_of_le (monthEnds_nodup store)
  · intro d
    rw [mem_monthEnds]
    constructor
    · rintro ⟨hd, hmax⟩
      exact ⟨mem_allDatesList.mp hd, fun e he hy => hmax e (mem_allDatesList.mpr he) hy⟩
    · rintro ⟨hd, hmax⟩
      exact ⟨mem_allDatesList.mpr hd, fun e he hy => hmax e (mem_allDatesList.mp he) hy⟩
  · intro pr
    constructor
    · rintro ⟨e, he, hy⟩
      have he' : e ∈ (allDatesList store).filter fun x => decide (ym x = pr) :=
        List.mem_filter.mpr ⟨he, by simp [hy]⟩
      obtain ⟨m, hm, hmax⟩ := exists_greatest_of_mem he'
      obtain ⟨hm1, hm2⟩ := List.mem_filter.mp hm
      have hm2 : ym m = pr := by simpa using hm2
      refine ⟨m, ?_, hm2⟩
      rw [mem_monthEnds]
      refine ⟨hm1, fun x hx hyx => ?_⟩
      exact hmax x (List.mem_filter.mpr ⟨hx, by simp [hyx, hm2]⟩)
    · rintro ⟨d, hd, hy⟩
      rw [mem_monthEnds] at hd
      exact ⟨d, hd.1, hy⟩
  · intro store' hperm
    exact monthEnds_eq_of_memEq (allDatesList_memEq_of_perm hperm)

/-- Witness for `monthEndIndex_spec`: the last trading day of 1970-02 in a
concrete two-symbol store is a month-end, and it dominates its month. -/
theorem monthEndIndex_spec_witness :
    (∃ p ∈ ([("A", [⟨3, 1, 1⟩, ⟨40, 1, 1⟩]), ("B", [⟨41, 1, 1⟩, ⟨2, 1, 1⟩])] : Store),
        ∃ b ∈ p.2, b.date = (41 : ℤ)) ∧
      ∀ e, (∃ p ∈ ([("A", [⟨3, 1, 1⟩, ⟨40, 1, 1⟩]), ("B", [⟨41, 1, 1⟩, ⟨2, 1, 1⟩])] : Store),
          ∃ b ∈ p.2, b.date = e) → ym e = ym 41 → e ≤ 41 :=
  ((monthEndIndex_spec
      [("A", [⟨3, 1, 1⟩, ⟨40, 1, 1⟩]), ("B", [⟨41, 1, 1⟩, ⟨2, 1, 1⟩])]).2.1 41).mp
    (by decide)

/-! ### C1: monotonic narrowing -/

theorem cutStage_mem {fvd : Date} {g : Date → List Symbol → List Symbol}
    {rows : List (Date × List Symbol)} {r : OutRow} (hr : r ∈ cutStage fvd g rows) :
    ∃ rr ∈ rows, fvd ≤ rr.1 ∧
      ((rr.2.isEmpty ∧ r = ⟨rr.1, [], 0⟩) ∨
        (¬ rr.2.isEmpty = true ∧
          r = ⟨rr.1, sortSyms (g rr.1 rr.2), (g rr.1 rr.2).length⟩)) := by
  rcases List.mem_map.mp hr with ⟨rr, hrr, heq⟩
  have h1 := List.mem_filter.mp hrr
  refine ⟨rr, h1.1, by simpa using h1.2, ?_⟩
  by_cases h2 : rr.2.isEmpty
  · refine Or.inl ⟨h2, ?_⟩
    rw [if_pos h2] at heq
    exact heq.symm
  · refine Or.inr ⟨h2, ?_⟩
    rw [if_neg h2] at heq
    exact heq.symm

/-- C1: for every output row of a non-ranking filter stage, the surviving
symbols are among that date's input candidates and the retained count is
at most the input candidate count; for the liquidity stage the input
candidate set is the whole loaded universe. -/
theorem stage_monotonic_narrowing (store : Store) (w w50 : ℕ) (thr : ℚ) (θ : ℝ)
    (rows : List (Date × List Symbol)) :
    (∀ r ∈ volumeCut store w thr,
      (∀ s ∈ r.stocks, s ∈ store.map Prod.fst) ∧ r.count ≤ store.length) ∧
    (∀ r ∈ smaCut store w rows,
      ∃ cands, (r.date, cands) ∈ rows ∧ (∀ s ∈ r.stocks, s ∈ cands) ∧
        r.count ≤ cands.length) ∧
    (∀ r ∈ angleCut store w w50 θ rows,
      ∃ cands, (r.date, cands) ∈ rows ∧ (∀ s ∈ r.stocks, s ∈ cands) ∧
        r.count ≤ cands.length) := by
  have hcut : ∀ (fvd : Date) (g : Date → List Symbol → List Symbol),
      (∀ d c s, s ∈ g d c → s ∈ c) → (∀ d c, (g d c).length ≤ c.length) →
      ∀ r ∈ cutStage fvd g rows,
        ∃ cands, (r.date, cands) ∈ rows ∧ (∀ s ∈ r.stocks, s ∈ cands) ∧
          r.count ≤ cands.length := by
    intro fvd g hsub hlen r hr
    obtain ⟨rr, hrr, _, hcase⟩ := cutStage_mem hr
    rcases hcase with ⟨_, rfl⟩ | ⟨_, rfl⟩
    · exact ⟨rr.2, by simpa using hrr, by simp, by simp⟩
    · refine ⟨rr.2, by simpa using hrr, ?_, ?_⟩
      · intro s hs
        exact hsub _ _ s (mem_sortSyms.mp hs)
      · simpa using hlen rr.1 rr.2
  refine ⟨?_, ?_, ?_⟩
  · intro r hr
    obtain ⟨d, _, heq⟩ := List.mem_map.mp hr
    rw [← heq]
    constructor
    · intro s hs
      have hs' := mem_sortSyms.mp (by simpa using hs)
      obtain ⟨p, hp, rfl⟩ := List.mem_map.mp hs'
      exact List.mem_map_of_mem Prod.fst (List.mem_of_mem_filter hp)
    · show (volumePassers store w thr d).length ≤ store.length
      rw [volumePassers, List.length_map]
      exact List.length_filter_le _ store
  · exact hcut _ _ (fun d c s hs => List.mem_of_mem_filter hs)
      (fun d c => List.length_filter_le _ c)
  · exact hcut _ _ (fun d c s hs => List.mem_of_mem_filter hs)
      (fun d c => List.length_filter_le _ c)

/-- Witness for `stage_monotonic_narrowing`: the trend-level stage output
row of a one-symbol store at an in-range date with no inherited
candidates. -/
theorem stage_monotonic_narrowing_witness :
    ∃ cands, (((⟨400, [], 0⟩ : OutRow).date, cands) ∈ [((400 : ℤ), ([] : List Symbol))]) ∧
      (∀ s ∈ (⟨400, [], 0⟩ : OutRow).stocks, s ∈ cands) ∧
      (⟨400, [], 0⟩ : OutRow).count ≤ cands.length :=
  (stage_monotonic_narrowing [("A", [⟨0, 1, 1⟩])] 200 50 1 0 [(400, [])]).2.1
    ⟨400, [], 0⟩ (by decide)

/-! ### C2: rolling-mean semantics and missing-value propagation -/

theorem rollingMean_getElem? (xs : List ℚ) (w i : ℕ) (hi : i < xs.length) :
    (rollingMean xs w)[i]? =
      some (if i + 1 < w then none
        else some (((xs.take (i + 1)).drop (i + 1 - w)).sum / (w : ℚ))) := by
  rw [rollingMean, List.getElem?_map, List.getElem?_range hi]
  rfl

theorem trailing_sum_eq (xs : List ℚ) (w i : ℕ) (hi : i < xs.length)
    (hw : w ≤ i + 1) :
    ((xs.take (i + 1)).drop (i + 1 - w)).sum =
      ∑ j ∈ Finset.range w, xs.getD (i - j) 0 := by
  have hofn : (xs.take (i + 1)).drop (i + 1 - w)
      = List.ofFn (fun j : Fin w => xs.getD (i + 1 - w + (j : ℕ)) 0) := by
    refine List.ext_getElem ?_ ?_
    · simp [List.length_drop, List.length_take]
      omega
    · intro n h1 h2
      rw [List.getElem_ofFn, List.getElem_drop, List.getElem_take]
      have hn : i + 1 - w + n < xs.length := by
        simp [List.length_drop, List.length_take] at h1
        omega
      rw [List.getD_eq_getElem xs 0 hn]
  rw [hofn, List.sum_ofFn]
  have h1 : ∑ j : Fin w, xs.getD (i + 1 - w + (j : ℕ)) 0
      = ∑ j ∈ Finset.range w, xs.getD (i + 1 - w + j) 0 :=
    Fin.sum_univ_eq_sum_range (fun j => xs.getD (i + 1 - w + j) 0) w
  rw [h1, ← Finset.sum_range_reflect (fun j => xs.getD (i - j) 0) w]
  refine Finset.sum_congr rfl fun j hj => ?_
  have hj' := Finset.mem_range.mp hj
  congr 1
  omega

/-- C2: the rolling mean over window `w ≥ 1` is missing at the first
`w − 1` positions and equals the arithmetic mean of the trailing `w`
observations afterwards; in the liquidity and trend-level stages a missing
metric value can never pass the predicate — a passing symbol always has a
defined metric at the date, so missing is never coerced to zero. -/
theorem rollingMean_spec (xs : List ℚ) (w : ℕ) (hw : 1 ≤ w) :
    (rollingMean xs w).length = xs.length ∧
    (∀ i, i < xs.length → i + 1 < w → (rollingMean xs w)[i]? = some none) ∧
    (∀ i, i < xs.length → w ≤ i + 1 →
      (rollingMean xs w)[i]? =
        some (some ((∑ j ∈ Finset.range w, xs.getD (i - j) 0) / (w : ℚ)))) ∧
    (∀ (store : Store) (thr : ℚ) (d : Date) (s : Symbol),
      s ∈ volumePassers store w thr d →
      ∃ p ∈ store, p.1 = s ∧ ∃ b v,
        metricAt (seriesAvgVol p.2 w) d = some (b, some v) ∧ thr < v) ∧
    (∀ (store : Store) (d : Date) (cands : List Symbol) (s : Symbol),
      s ∈ smaPassers store w d cands →
      ∃ p b m, store.find? (fun q => q.1 == s) = some p ∧
        metricAt (seriesSma p.2 w) d = some (b, some m) ∧ m < b.close) := by
  refine ⟨by simp [rollingMean], ?_, ?_, ?_, ?_⟩
  · intro i hi hlt
    rw [rollingMean_getElem? xs w i hi, if_pos hlt]
  · intro i hi hge
    rw [rollingMean_getElem? xs w i hi, if_neg (by omega),
      trailing_sum_eq xs w i hi hge]
  · intro store thr d s hs
    obtain ⟨p, hp, rfl⟩ := List.mem_map.mp hs
    have hq := (List.mem_filter.mp hp).2
    refine ⟨p, (List.mem_filter.mp hp).1, rfl, ?_⟩
    rcases hm : metricAt (seriesAvgVol p.2 w) d with _ | ⟨b, _ | v⟩ <;> rw [hm] at hq
    · simp at hq
    · simp at hq
    · exact ⟨b, v, rfl, by simpa using hq⟩
  · intro store d cands s hs
    have hq := (List.mem_filter.mp hs).2
    split at hq
    · simp at hq
    · rename_i p hf
      split at hq
      · rename_i b m hm
        exact ⟨p, b, m, hf, hm, by simpa using hq⟩
      · simp at hq

/-- Witness for `rollingMean_spec`: position 1 of a three-element series
under window 2 carries the mean of the trailing two observations. -/
theorem rollingMean_spec_witness :
    (rollingMean [1, 2, 3] 2)[1]? =
      some (some ((∑ j ∈ Finset.range 2, [(1 : ℚ), 2, 3].getD (1 - j) 0) / (2 : ℚ))) :=
  (rollingMean_spec [1, 2, 3] 2 (by decide)).2.2.1 1 (by decide) (by decide)

/-! ### C3: the slope-angle metric -/

theorem getElem?_zip_eq {α β : Type} (l₁ : List α) (l₂ : List β) (i : ℕ) :
    (l₁.zip l₂)[i]? =
      match l₁[i]?, l₂[i]? with
      | some a, some b => some (a, b)
      | _, _ => none := by
  rw [List.zip_eq_zipWith, List.getElem?_zipWith]
  rcases l₁[i]? with _ | a <;> rcases l₂[i]? with _ | b <;> rfl

theorem shift1_getElem? {α : Type} (xs : List (Option α)) (t : ℕ)
    (ht : t < xs.length) :
    (shift1 xs)[t]? = some (if t = 0 then none else xs.getD (t - 1) none) := by
  rw [shift1, List.getElem?_take, if_pos ht]
  cases t with
  | zero => simp
  | succ j =>
      rw [List.getElem?_cons_succ, if_neg (Nat.succ_ne_zero j)]
      have hj : j < xs.length := lt_of_le_of_lt (Nat.le_succ j) ht
      simp [List.getElem?_eq_getElem hj, List.getD_eq_getElem xs none hj]

theorem length_shift1 {α : Type} (xs : List (Option α)) :
    (shift1 xs).length = xs.length := by
  simp [shift1]

theorem angleSeries_length (closes : List ℚ) (w : ℕ) :
    (angleSeries closes w).length = closes.length := by
  simp [angleSeries, List.length_zip, length_shift1, rollingMean]

theorem angleSeries_getElem? (closes : List ℚ) (w : ℕ) (t : ℕ)
    (ht : t < closes.length) :
    (angleSeries closes w)[t]? = some (
      match (rollingMean closes w).getD t none,
          (if t = 0 then none else (rollingMean closes w).getD (t - 1) none) with
      | some cur, some prev =>
          some (Real.arctan (((cur : ℝ) - (prev : ℝ)) / ((closes.getD t 0 : ℝ) * 0.01))
            * 180 / Real.pi)
      | _, _ => none) := by
  have hma : (rollingMean closes w).length = closes.length := by simp [rollingMean]
  have htm : t < (rollingMean closes w).length := by rw [hma]; exact ht
  rw [angleSeries]
  rw [List.getElem?_map, getElem?_zip_eq, getElem?_zip_eq]
  rw [List.getElem?_eq_getElem htm,
    shift1_getElem? (rollingMean closes w) t htm,
    List.getElem?_eq_getElem ht,
    List.getD_eq_getElem (rollingMean closes w) none htm,
    List.getD_eq_getElem closes 0 ht]
  rfl

/-- C3: at every in-range position `t`, the slope-angle metric is
`arctan((ma[t] − ma[t−1]) / (close[t] · 0.01)) · 180/π` whenever both
moving-average values are defined, is missing exactly when `t` is the
first position or either moving-average input is missing, and is exactly
0° when the moving average is constant across the two consecutive periods
and the close is nonzero. -/
theorem slope_angle_spec (closes : List ℚ) (w : ℕ) :
    (angleSeries closes w).length = closes.length ∧
    (∀ t, t < closes.length →
      ((angleSeries closes w).getD t none = none ↔
        t = 0 ∨ (rollingMean closes w).getD t none = none ∨
          (rollingMean closes w).getD (t - 1) none = none)) ∧
    (∀ t, t < closes.length → 1 ≤ t → ∀ a b : ℚ,
      (rollingMean closes w).getD t none = some a →
      (rollingMean closes w).getD (t - 1) none = some b →
      (angleSeries closes w).getD t none =
        some (Real.arctan (((a : ℝ) - (b : ℝ)) / ((closes.getD t 0 : ℝ) * 0.01))
          * 180 / Real.pi)) ∧
    (∀ t, t < closes.length → 1 ≤ t → closes.getD t 0 ≠ 0 → ∀ a : ℚ,
      (rollingMean closes w).getD t none = some a →
      (rollingMean closes w).getD (t - 1) none = some a →
      (angleSeries closes w).getD t none = some 0) := by
  have hget : ∀ t, t < closes.length → (angleSeries closes w).getD t none
      = (match (rollingMean closes w).getD t none,
          (if t = 0 then none else (rollingMean closes w).getD (t - 1) none) with
        | some cur, some prev =>
            some (Real.arctan (((cur : ℝ) - (prev : ℝ)) / ((closes.getD t 0 : ℝ) * 0.01))
              * 180 / Real.pi)
        | _, _ => none) := by
    intro t ht
    rw [List.getD_eq_getElem?_getD, angleSeries_getElem? closes w t ht]
    rfl
  refine ⟨angleSeries_length closes w, ?_, ?_, ?_⟩
  · intro t ht
    rw [hget t ht]
    by_cases h0 : t = 0
    · simp [h0]
    · rw [if_neg h0]
      rcases hc : (rollingMean closes w).getD t none with _ | a
      · simp [h0]
      · rcases hp : (rollingMean closes w).getD (t - 1) none with _ | b
        · simp [h0]
        · simp [h0]
  · intro t ht ht1 a b ha hb
    rw [hget t ht, ha, if_neg (by omega), hb]
  · intro t ht ht1 hc a ha hb
    rw [hget t ht, ha, if_neg (by omega), hb]
    simp [sub_self, Real.arctan_zero]

/-- Witness for `slope_angle_spec`: with a constant 1-period moving
average over two equal closes, the angle at position 1 is exactly 0°. -/
theorem slope_angle_spec_witness :
    (angleSeries [2, 2] 1).getD 1 none = some 0 :=
  (slope_angle_spec [2, 2] 1).2.2.2 1 (by decide) (by decide) (by norm_num)
    2 (by norm_num [rollingMean]) (by norm_num [rollingMean])

/-! ### C5: benchmark resolution and zero-return skip -/

/-- C5: when the benchmark has no record at the exact month-end date or at
the exact lookback date, or when the benchmark return is exactly zero, the
relative-strength stage emits an empty row for that date (a soft per-date
skip — the function is total, so no run failure), and consequently the
per-symbol ratio is never formed with a zero divisor. -/
theorem benchmark_skip_soft (store : Store) (bench : List Bar) (months : ℤ)
    (n : ℕ) (d : Date) (cands : List Symbol) :
    ((priceAt bench d = none ∨ priceAt bench (subMonths d months) = none) →
      relRankRow store bench months n d cands = ⟨d, ""⟩) ∧
    (∀ cur past : ℚ, priceAt bench d = some cur →
      priceAt bench (subMonths d months) = some past →
      (cur - past) / past = 0 →
      relRankRow store bench months n d cands = ⟨d, ""⟩) := by
  constructor
  · intro h
    by_cases hc : cands.isEmpty
    · simp [relRankRow, hc]
    · rcases h with h | h
      · rcases hp : priceAt bench (subMonths d months) with _ | past
        · simp [relRankRow, hc, h, hp]
        · simp [relRankRow, hc, h, hp]
      · rcases hq : priceAt bench d with _ | cur
        · simp [relRankRow, hc, h, hq]
        · simp [relRankRow, hc, h, hq]
  · intro cur past hcur hpast hz
    by_cases hc : cands.isEmpty
    · simp [relRankRow, hc]
    · simp [relRankRow, hc, hcur, hpast, hz]

/-- Witness for `benchmark_skip_soft`: an empty benchmark series has no
record at the exact date, so the row is empty. -/
theorem benchmark_skip_soft_witness :
    relRankRow [] [] 1 5 0 ["A"] = ⟨0, ""⟩ :=
  (benchmark_skip_soft [] [] 1 5 0 ["A"]).1 (Or.inl rfl)

/-! ### C4: relative-strength output shape -/

theorem mem_rsEntries_ratio {store : Store} {nret : ℚ} {d lb : Date}
    {cands : List Symbol} {e : RankEntry}
    (he : e ∈ rsEntries store nret d lb cands) : 1 ≤ e.ratio := by
  obtain ⟨name, _, hfe⟩ := List.mem_filterMap.mp he
  split at hfe
  · cases hfe
  · split at hfe
    · dsimp only at hfe
      split at hfe
      · rename_i hge
        cases hfe
        exact hge
      · cases hfe
    · cases hfe

theorem topStocks_mem_entries {store : Store} {nret : ℚ} {d lb : Date}
    {cands : List Symbol} {n : ℕ} {e : RankEntry}
    (he : e ∈ topStocks store nret d lb cands n) :
    e ∈ rsEntries store nret d lb cands :=
  (List.perm_insertionSort _ _).mem_iff.mp (List.mem_of_mem_take he)

theorem topStocks_sorted (store : Store) (nret : ℚ) (d lb : Date)
    (cands : List Symbol) (n : ℕ) :
    List.Pairwise (fun a b : RankEntry => b.ratio ≤ a.ratio)
      (topStocks store nret d lb cands n) := by
  letI : IsTotal RankEntry (fun a b => b.ratio ≤ a.ratio) :=
    ⟨fun a b => le_total b.ratio a.ratio⟩
  letI : IsTrans RankEntry (fun a b => b.ratio ≤ a.ratio) :=
    ⟨fun a b c hab hbc => le_trans hbc hab⟩
  exact List.Pairwise.sublist (List.take_sublist n _)
    (List.sorted_insertionSort (fun a b : RankEntry => b.ratio ≤ a.ratio) _)

/-- C4: for every date the relative-strength output carries at most `n`
entries, every entry's ratio is at least 1, entries are sorted
non-increasing by ratio, and on the ranking path the persisted field is
the comma-separated `SYMBOL (ratio)` rendering with the ratio printed to
exactly two decimal places. -/
theorem relative_strength_spec (store : Store) (bench : List Bar) (months : ℤ)
    (n : ℕ) (d lb : Date) (nret : ℚ) (cands : List Symbol) :
    (topStocks store nret d lb cands n).length ≤ n ∧
    (∀ e ∈ topStocks store nret d lb cands n, 1 ≤ e.ratio) ∧
    List.Pairwise (fun a b : RankEntry => b.ratio ≤ a.ratio)
      (topStocks store nret d lb cands n) ∧
    (∀ l : List RankEntry, renderEntries l =
      String.intercalate ", " (l.map fun e => e.stock ++ " (" ++ fmt2 e.ratio ++ ")")) ∧
    (∀ q : ℚ, ∃ a b : String, fmt2 q = a ++ "." ++ b ∧ b.length = 2) ∧
    (¬ cands.isEmpty → ∀ cur past : ℚ, priceAt bench d = some cur →
      priceAt bench (subMonths d months) = some past →
      (cur - past) / past ≠ 0 →
      relRankRow store bench months n d cands =
        ⟨d, renderEntries
          (topStocks store ((cur - past) / past) d (subMonths d months) cands n)⟩) := by
  refine ⟨List.length_take_le n _, fun e he => mem_rsEntries_ratio (topStocks_mem_entries he),
    topStocks_sorted store nret d lb cands n, fun l => rfl, ?_, ?_⟩
  · intro q
    exact ⟨(if round (q * 100) < 0 then "-" else "")
        ++ toString ((round (q * 100)).natAbs / 100),
      pad2 ((round (q * 100)).natAbs % 100), rfl, rfl⟩
  · intro hc cur past hcur hpast hz
    simp [relRankRow, hc, hcur, hpast, hz]

/-- Witness for `relative_strength_spec`: a concrete ranking-path row with
a nonzero benchmark return renders the top list. -/
theorem relative_strength_spec_witness :
    relRankRow [] [⟨0, 2, 1⟩, ⟨-31, 1, 1⟩] 1 5 0 ["A"] =
      ⟨0, renderEntries
        (topStocks [] (((2 : ℚ) - 1) / 1) 0 (subMonths 0 1) ["A"] 5)⟩ :=
  (relative_strength_spec [] [⟨0, 2, 1⟩, ⟨-31, 1, 1⟩] 1 5 0 (subMonths 0 1) 1
      ["A"]).2.2.2.2.2 (by decide) 2 1 rfl (by decide) (by norm_num)

/-! ### C7: exact-date record matching, silent exclusion -/

/-- C7: a candidate passes the trend-level filter exactly when its series
is in the store, has a record whose calendar date equals the month-end
date (no nearest-prior fallback), and the required metric is defined and
satisfies the predicate there; a candidate with no record at the exact
date is silently excluded, and a liquidity-stage passer likewise always
has a record at the exact date with a defined metric. -/
theorem exact_date_match_spec (store : Store) (w w200 w50 : ℕ) (thr : ℚ)
    (θ : ℝ) (d : Date) (cands : List Symbol) (s : Symbol) :
    (s ∈ smaPassers store w d cands ↔ s ∈ cands ∧
      ∃ p, store.find? (fun q => q.1 == s) = some p ∧
        ∃ b m, metricAt (seriesSma p.2 w) d = some (b, some m) ∧ b.date = d ∧
          m < b.close) ∧
    (∀ p, store.find? (fun q => q.1 == s) = some p →
      (∀ b ∈ p.2, b.date ≠ d) → s ∉ smaPassers store w d cands) ∧
    (s ∈ volumePassers store w thr d →
      ∃ p ∈ store, p.1 = s ∧ ∃ b v,
        metricAt (seriesAvgVol p.2 w) d = some (b, some v) ∧ b.date = d ∧
          thr < v) ∧
    (s ∈ anglePassers store w200 w50 θ d cands →
      ∃ p, store.find? (fun q => q.1 == s) = some p ∧
        ∃ r, buyAt (seriesBuy p.2 w200 w50) d = some r ∧ r.1.date = d ∧
          buyZone r θ = true) := by
  have hiff : s ∈ smaPassers store w d cands ↔ s ∈ cands ∧
      ∃ p, store.find? (fun q => q.1 == s) = some p ∧
        ∃ b m, metricAt (seriesSma p.2 w) d = some (b, some m) ∧ b.date = d ∧
          m < b.close := by
    constructor
    · intro hs
      obtain ⟨hc, hq⟩ := List.mem_filter.mp hs
      refine ⟨hc, ?_⟩
      split at hq
      · simp at hq
      · rename_i p hf
        split at hq
        · rename_i b m hm
          exact ⟨p, hf, b, m, hm, metricAt_date hm, by simpa using hq⟩
        · simp at hq
    · rintro ⟨hc, p, hf, b, m, hm, _, hlt⟩
      refine List.mem_filter.mpr ⟨hc, ?_⟩
      simp only [hf, hm]
      simpa using hlt
  refine ⟨hiff, ?_, ?_, ?_⟩
  · intro p hf hnone hmem
    obtain ⟨_, p', hf', b, m, hm, hbd, _⟩ := hiff.mp hmem
    rw [hf] at hf'
    cases hf'
    have hrow := List.mem_of_find?_eq_some hm
    have hb : b ∈ p.2 := (List.of_mem_zip hrow).1
    exact hnone b hb hbd
  · intro hs
    obtain ⟨p, hp, rfl⟩ := List.mem_map.mp hs
    have hq := (List.mem_filter.mp hp).2
    split at hq
    · rename_i b v hm
      exact ⟨p, (List.mem_filter.mp hp).1, rfl, b, v, hm, metricAt_date hm,
        by simpa using hq⟩
    · simp at hq
  · intro hs
    have hq := (List.mem_filter.mp hs).2
    split at hq
    · simp at hq
    · rename_i p hf
      split at hq
      · rename_i r hm
        exact ⟨p, hf, r, hm, buyAt_date hm, hq⟩
      · simp at hq

/-- Witness for `exact_date_match_spec`: a symbol whose only record is on
a different calendar date is silently excluded from the trend-level
stage. -/
theorem exact_date_match_spec_witness :
    "A" ∉ smaPassers [("A", [⟨5, 1, 1⟩])] 200 3 ["A"] :=
  (exact_date_match_spec [("A", [⟨5, 1, 1⟩])] 200 200 50 0 0 3 ["A"] "A").2.1
    ("A", [⟨5, 1, 1⟩]) rfl (by decide)

/-! ### C8: warm-up cutoff -/

theorem cutStage_map_date (fvd : Date) (g : Date → List Symbol → List Symbol)
    (rows : List (Date × List Symbol)) :
    (cutStage fvd g rows).map OutRow.date
      = (rows.map Prod.fst).filter (fun x => decide (fvd ≤ x)) := by
  rw [cutStage, List.map_map, List.filter_map]
  congr 1
  funext r
  show (if r.2.isEmpty then (⟨r.1, [], 0⟩ : OutRow)
    else ⟨r.1, sortSyms (g r.1 r.2), (g r.1 r.2).length⟩).date = r.1
  split <;> rfl

theorem cutStage_empty_row {fvd : Date} {g : Date → List Symbol → List Symbol}
    {rows : List (Date × List Symbol)} {r : Date × List Symbol}
    (hr : r ∈ rows) (hge : fvd ≤ r.1) (hempty : r.2 = []) :
    (⟨r.1, [], 0⟩ : OutRow) ∈ cutStage fvd g rows :=
  List.mem_map.mpr ⟨r, List.mem_filter.mpr ⟨hr, by simpa using hge⟩,
    by simp [hempty]⟩

/-- C8: a warm-up stage processes exactly the input month-end dates on or
after `earliest_series_start + window·1.5` calendar days — dates before
the cutoff produce no output row at all, while in-range dates with an
empty inherited candidate set still produce a row with no stocks and
count 0; for the 200-day window the cutoff is exactly the earliest series
start plus 300 days. -/
theorem warmup_cutoff_spec (store : Store) (w w50 : ℕ) (θ : ℝ)
    (rows : List (Date × List Symbol)) :
    ((smaCut store w rows).map OutRow.date
      = (rows.map Prod.fst).filter (fun x => decide (firstValidDate store w ≤ x))) ∧
    ((angleCut store w w50 θ rows).map OutRow.date
      = (rows.map Prod.fst).filter (fun x => decide (firstValidDate store w ≤ x))) ∧
    (∀ r ∈ rows, firstValidDate store w ≤ r.1 → r.2 = [] →
      (⟨r.1, [], 0⟩ : OutRow) ∈ smaCut store w rows ∧
        (⟨r.1, [], 0⟩ : OutRow) ∈ angleCut store w w50 θ rows) ∧
    (∀ out ∈ smaCut store w rows, firstValidDate store w ≤ out.date) ∧
    (∀ out ∈ angleCut store w w50 θ rows, firstValidDate store w ≤ out.date) ∧
    (∀ m0 : Date, minDate? store = some m0 →
      firstValidDate store w = m0 + (3 * (w : ℤ)) / 2) ∧
    (∀ m0 : Date, minDate? store = some m0 →
      firstValidDate store 200 = m0 + 300) := by
  refine ⟨cutStage_map_date _ _ rows, cutStage_map_date _ _ rows, ?_, ?_, ?_, ?_, ?_⟩
  · intro r hr hge hempty
    exact ⟨cutStage_empty_row hr hge hempty, cutStage_empty_row hr hge hempty⟩
  · intro out hout
    obtain ⟨rr, _, hge, hcase⟩ := cutStage_mem hout
    rcases hcase with ⟨_, rfl⟩ | ⟨_, rfl⟩ <;> exact hge
  · intro out hout
    obtain ⟨rr, _, hge, hcase⟩ := cutStage_mem hout
    rcases hcase with ⟨_, rfl⟩ | ⟨_, rfl⟩ <;> exact hge
  · intro m0 hm0
    rw [firstValidDate, hm0]
    rfl
  · intro m0 hm0
    rw [firstValidDate, hm0]
    norm_num

/-- Witness for `warmup_cutoff_spec`: a store whose earliest bar is at
serial day 0 gets the 200-day cutoff at day 300. -/
theorem warmup_cutoff_spec_witness :
    firstValidDate [("A", [⟨0, 1, 1⟩])] 200 = 0 + 300 :=
  (warmup_cutoff_spec [("A", [⟨0, 1, 1⟩])] 200 50 0 []).2.2.2.2.2.2 0 rfl

/-! ### C9: canonical order and determinism -/

theorem volumePassers_perm {store store' : Store} (h : store.Perm store')
    (w : ℕ) (thr : ℚ) (d : Date) :
    (volumePassers store w thr d).Perm (volumePassers store' w thr d) :=
  (h.filter _).map Prod.fst

/-- C9: every persisted row is a deterministic function of the input data:
the filter stages' stocks fields are ascending-sorted symbol lists, the
ranker's per-date list is in rank order, and the liquidity stage's whole
output is invariant under reordering of the in-memory symbol store (the
pipeline itself is a pure function, so rerunning it on identical inputs
reproduces every row). -/
theorem pipeline_deterministic (store store' : Store) (w w200 w50 : ℕ)
    (thr nret : ℚ) (θ : ℝ) (d lb : Date) (cands : List Symbol) (n : ℕ)
    (rows : List (Date × List Symbol)) :
    (∀ r ∈ volumeCut store w thr, List.Sorted (· ≤ ·) r.stocks) ∧
    (∀ r ∈ smaCut store w rows, List.Sorted (· ≤ ·) r.stocks) ∧
    (∀ r ∈ angleCut store w200 w50 θ rows, List.Sorted (· ≤ ·) r.stocks) ∧
    List.Pairwise (fun a b : RankEntry => b.ratio ≤ a.ratio)
      (topStocks store nret d lb cands n) ∧
    (store.Perm store' → volumeCut store w thr = volumeCut store' w thr) := by
  have hcutSorted : ∀ (fvd : Date) (g : Date → List Symbol → List Symbol)
      (r : OutRow), r ∈ cutStage fvd g rows → List.Sorted (· ≤ ·) r.stocks := by
    intro fvd g r hr
    obtain ⟨rr, _, _, hcase⟩ := cutStage_mem hr
    rcases hcase with ⟨_, rfl⟩ | ⟨_, rfl⟩
    · exact List.sorted_nil
    · exact sortSyms_sorted _
  refine ⟨?_, fun r hr => hcutSorted _ _ r hr, fun r hr => hcutSorted _ _ r hr,
    topStocks_sorted store nret d lb cands n, ?_⟩
  · intro r hr
    obtain ⟨d', _, heq⟩ := List.mem_map.mp hr
    rw [← heq]
    exact sortSyms_sorted _
  · intro hperm
    rw [volumeCut, volumeCut, monthEnds_eq_of_memEq (allDatesList_memEq_of_perm hperm)]
    refine List.map_congr_left fun d' _ => ?_
    have hps := volumePassers_perm hperm w thr d'
    show (⟨d', sortSyms (volumePassers store w thr d'),
        (volumePassers store w thr d').length⟩ : OutRow)
      = ⟨d', sortSyms (volumePassers store' w thr d'),
        (volumePassers store' w thr d').length⟩
    rw [sortSyms_eq_of_perm hps, hps.length_eq]

/-- Witness for `pipeline_deterministic`: swapping the two symbols of a
concrete store leaves the liquidity output unchanged. -/
theorem pipeline_deterministic_witness :
    volumeCut [("A", [⟨3, 1, 1⟩]), ("B", [⟨4, 1, 1⟩])] 20 500000 =
      volumeCut [("B", [⟨4, 1, 1⟩]), ("A", [⟨3, 1, 1⟩])] 20 500000 :=
  (pipeline_deterministic [("A", [⟨3, 1, 1⟩]), ("B", [⟨4, 1, 1⟩])]
      [("B", [⟨4, 1, 1⟩]), ("A", [⟨3, 1, 1⟩])] 20 200 50 500000 1 0 0 0 [] 30
      []).2.2.2.2
    (List.Perm.swap (("B", [⟨4, 1, 1⟩]) : Symbol × List Bar)
      (("A", [⟨3, 1, 1⟩]) : Symbol × List Bar) [])

/-! ### C10: candidates with no loaded series -/

/-- C10: in each of the trend-level, trend-slope and relative-strength
stages, a candidate symbol whose time series is absent from the in-memory
store is silently dropped: it never appears in the stage's per-date
output, and removing it from the candidate list leaves the result for the
other candidates unchanged. -/
theorem missing_series_excluded (store : Store) (w w200 w50 : ℕ) (θ : ℝ)
    (nret : ℚ) (d lb : Date) (cands : List Symbol) (s : Symbol)
    (hs : store.find? (fun p => p.1 == s) = none) :
    (s ∉ smaPassers store w d cands ∧
      smaPassers store w d (s :: cands) = smaPassers store w d cands) ∧
    (s ∉ anglePassers store w200 w50 θ d cands ∧
      anglePassers store w200 w50 θ d (s :: cands)
        = anglePassers store w200 w50 θ d cands) ∧
    ((∀ e ∈ rsEntries store nret d lb cands, e.stock ≠ s) ∧
      rsEntries store nret d lb (s :: cands) = rsEntries store nret d lb cands) := by
  refine ⟨⟨?_, ?_⟩, ⟨?_, ?_⟩, ?_, ?_⟩
  · intro hmem
    have hq := (List.mem_filter.mp hmem).2
    split at hq
    · simp at hq
    · rename_i p hf
      rw [hs] at hf
      cases hf
  · rw [smaPassers, smaPassers, List.filter_cons]
    simp [hs]
  · intro hmem
    have hq := (List.mem_filter.mp hmem).2
    split at hq
    · simp at hq
    · rename_i p hf
      rw [hs] at hf
      cases hf
  · rw [anglePassers, anglePassers, List.filter_cons]
    simp [hs]
  · intro e he
    obtain ⟨name, _, hfe⟩ := List.mem_filterMap.mp he
    split at hfe
    · cases hfe
    · rename_i p hf
      split at hfe
      · dsimp only at hfe
        split at hfe
        · cases hfe
          intro heq
          dsimp only at heq
          rw [heq, hs] at hf
          cases hf
        · cases hfe
      · cases hfe
  · rw [rsEntries, rsEntries, List.filterMap_cons]
    simp [hs]

/-- Witness for `missing_series_excluded`: a candidate inherited from the
previous stage's file that has no series in an empty store is dropped,
without affecting the rest of the candidate list. -/
theorem missing_series_excluded_witness :
    "A" ∉ smaPassers [] 200 0 ["B"] ∧
      smaPassers [] 200 0 ("A" :: ["B"]) = smaPassers [] 200 0 ["B"] :=
  (missing_series_excluded [] 200 200 50 0 0 0 0 ["B"] "A" rfl).1

end NSE
